import Mathlib

/-!
Shallow embedding of the `ast-latex` repository (files `expr.py` and `ast.py`)
and verification of its specification claims.

Conventions of the embedding:
* Python's `None`-able references become `Option`.
* Python runtime faults (AttributeError, IndexError, KeyError) become an
  explicit error type `PyErr`; fallible code returns `Except PyErr α`.
* Python `while` loops become fueled recursion; running out of fuel is the
  distinct error `PyErr.fuelOut` (proved unreachable where a claim needs it).
* The mutable node graph of `ast.py` (nodes carry `parent` back-references)
  is embedded as an arena: a list of node records addressed by index, as the
  spec's design notes themselves suggest for ownership-disciplined languages.
* Numeric values are embedded as `Rat`; the shipped evaluator faults before
  performing any arithmetic, so no floating-point behaviour is ever reached.
-/

/-- Python runtime faults surfaced by the embedding. -/
inductive PyErr where
  /-- AttributeError: the named attribute does not exist (on a module or on `None`). -/
  | attributeError (name : String)
  /-- IndexError: `list.pop()` from an empty list, or an out-of-range index. -/
  | indexError
  /-- KeyError: dictionary lookup miss. -/
  | keyError
  /-- TypeError: calling a non-callable or with a wrong number of arguments. -/
  | typeError
  /-- ValueError: e.g. `float(s)` on a non-numeric string. -/
  | valueError
  /-- Fuel exhaustion of the embedding's fueled loops (not a Python fault). -/
  | fuelOut
deriving DecidableEq

/-- Truthiness of the faulty classifier `expr.is_func`, whose body is `pass`,
so it returns Python `None`; `None` is falsy. -/
def pyTruthy : Option Bool → Bool
  | none => false
  | some b => b

/-- Decidable equality of `Except` values (used to state and decide concrete
evaluations of the embedded code). -/
instance {ε α : Type} [DecidableEq ε] [DecidableEq α] : DecidableEq (Except ε α) :=
  fun a b =>
    match a, b with
    | .ok x, .ok y =>
      if h : x = y then .isTrue (by rw [h]) else .isFalse (by simp [h])
    | .error x, .error y =>
      if h : x = y then .isTrue (by rw [h]) else .isFalse (by simp [h])
    | .ok _, .error _ => .isFalse (by simp)
    | .error _, .ok _ => .isFalse (by simp)

namespace expr

/-- The namedtuple `Op = ('precedence', 'associativity')` from `expr.py`. -/
structure Op where
  precedence : Nat
  associativity : Nat
deriving DecidableEq

/-- Source: `_RIGHT, _LEFT = 0,1`. -/
def _RIGHT : Nat := 0

/-- Source: `_RIGHT, _LEFT = 0,1`. -/
def _LEFT : Nat := 1

/-- The `_OPS` dictionary of `expr.py`: symbol to precedence/associativity. -/
def _OPS : String → Option Op := fun s =>
  if s = "^" then some ⟨4, _RIGHT⟩
  else if s = "*" then some ⟨3, _LEFT⟩
  else if s = "/" then some ⟨3, _LEFT⟩
  else if s = "+" then some ⟨2, _LEFT⟩
  else if s = "-" then some ⟨2, _LEFT⟩
  else none

/-- The keys of `basic_opeartors_mapper` (sic) in source order. -/
def basic_opeartors_mapper_keys : List String := ["+", "-", "*", "/", "^"]

/-- The keys of `function_mapper` in source order (`sin` is bound to `None`). -/
def function_mapper_keys : List String := ["max", "min", "sin"]

/-- Source `is_symbol(s)`: membership of `s` in the keys of `basic_opeartors_mapper`. -/
def is_symbol (s : String) : Bool := basic_opeartors_mapper_keys.contains s

/-- Source `is_func(s)`: its body is `pass`, so every call returns `None`. -/
def is_func (_s : String) : Option Bool := none

/-- Source `is_digit(s)` on a single character: membership in `"1234567890"`. -/
def is_digit (c : Char) : Bool := "1234567890".data.contains c

/-- Source `is_letter(s)` on a single character: `s.isalpha()`. -/
def is_letter (c : Char) : Bool := c.isAlpha

/-- Source `has_precedence(a, b)`: compares two operators through `_OPS`;
a missing key is Python's KeyError. -/
def has_precedence (a b : String) : Except PyErr Bool :=
  match _OPS b, _OPS a with
  | some ob, some oa =>
      .ok ((ob.associativity = _RIGHT && oa.precedence > ob.precedence) ||
           (ob.associativity = _LEFT && oa.precedence ≥ ob.precedence))
  | _, _ => .error .keyError

/-- The token class of `expr.py`: a lexeme plus six boolean kind flags. -/
structure token where
  sym : String
  is_num : Bool
  is_func : Bool
  is_dummy : Bool
  is_oper : Bool
  is_leftb : Bool
  is_rightb : Bool
deriving DecidableEq

/-- Constructor call `token(sym, is_num=True)`. -/
def token.numTok (s : String) : token := ⟨s, true, false, false, false, false, false⟩

/-- Constructor call `token(sym, is_func=True)`. -/
def token.funcTok (s : String) : token := ⟨s, false, true, false, false, false, false⟩

/-- Constructor call `token(sym, is_dummy=True)`. -/
def token.dummyTok (s : String) : token := ⟨s, false, false, true, false, false, false⟩

/-- Constructor call `token(sym, is_oper=True)`. -/
def token.operTok (s : String) : token := ⟨s, false, false, false, true, false, false⟩

/-- Constructor call `token(sym, is_leftb=True)`. -/
def token.leftbTok (s : String) : token := ⟨s, false, false, false, false, true, false⟩

/-- Constructor call `token(sym, is_rightb=True)`. -/
def token.rightbTok (s : String) : token := ⟨s, false, false, false, false, false, true⟩

/-- Whether one of the registered function names (`max`, `min`, `sin`) matches
at the head of the character list: the per-position test of the compiled
regex `(max|min|sin)` built by `_func_regex`. -/
def matchesFuncAt (l : List Char) : Bool :=
  function_mapper_keys.any fun f => f.data = l.take f.length

/-- Start indices of the non-overlapping, left-to-right matches of the
function regex, as produced by `re.finditer` inside `_match_regex`.
Every registered function name has length 3, so a match at `i` spans
`[i, i+3)` and scanning resumes at `i+3`. -/
def _match_startsAux : Nat → List Char → Nat → List Nat
  | 0, _, _ => []
  | _, [], _ => []
  | fuel + 1, c :: rest, i =>
    if matchesFuncAt (c :: rest) then
      i :: _match_startsAux fuel ((c :: rest).drop 3) (i + 3)
    else _match_startsAux fuel rest (i + 1)

/-- Fuel adequacy: each step strips at least one character, so `l.length`
steps suffice (the fuel is never what stops the scan). -/
def _match_starts (l : List Char) (i : Nat) : List Nat :=
  _match_startsAux l.length l i

/-- Python slice `e[i:j]` over a character list. -/
def strSlice (e : List Char) (i j : Nat) : String := ⟨(e.drop i).take (j - i)⟩

/-- The body of `tokenize`'s `while index < len(e)` loop, fueled.
`starts`/`ends` are the two lists produced by `_match_regex`; `index` walks
the string and `eindex` counts emitted function tokens.  The source's
`index -= 1` after a digit/letter run followed by the trailing `index += 1`
net to advancing `index` past the run. -/
def tokenizeLoop (e : List Char) (starts ends : List Nat) :
    Nat → Nat → Nat → Except PyErr (List token)
  | 0, _, _ => .error .fuelOut
  | fuel + 1, index, eindex =>
    if h : index < e.length then
      if starts.contains index then
        match ends.get? eindex with
        | none => .error .indexError
        | some en =>
          (tokenizeLoop e starts ends fuel en (eindex + 1)).map
            (token.funcTok (strSlice e index en) :: ·)
      else
        let c := e.get ⟨index, h⟩
        if is_digit c then
          let run := (e.drop index).takeWhile is_digit
          (tokenizeLoop e starts ends fuel (index + run.length) eindex).map
            (token.numTok ⟨run⟩ :: ·)
        else if is_letter c then
          let run := (e.drop index).takeWhile is_letter
          (tokenizeLoop e starts ends fuel (index + run.length) eindex).map
            (token.dummyTok ⟨run⟩ :: ·)
        else if c = '(' then
          (tokenizeLoop e starts ends fuel (index + 1) eindex).map
            (token.leftbTok (String.singleton c) :: ·)
        else if c = ')' then
          (tokenizeLoop e starts ends fuel (index + 1) eindex).map
            (token.rightbTok (String.singleton c) :: ·)
        else if is_symbol (String.singleton c) then
          (tokenizeLoop e starts ends fuel (index + 1) eindex).map
            (token.operTok (String.singleton c) :: ·)
        else
          tokenizeLoop e starts ends fuel (index + 1) eindex
    else .ok []

/-- Source `tokenize(e)`: match function names, digit runs, letter runs,
parentheses, operator characters; drop everything else.  The fuel
`(len ends + 1) * (len e + 1) + 1` dominates the loop's lexicographic
measure, and `tokenize_never_fails` proves it is never exhausted. -/
def tokenize (s : String) : Except PyErr (List token) :=
  let e := s.data
  let starts := _match_starts e 0
  let ends := starts.map (· + 3)
  tokenizeLoop e starts ends ((ends.length + 1) * (e.length + 1) + 1) 0 0

/-- The inner `while` of the operator case of the postfix converter:
`while len(op) > 0 and op[-1] != "(" and has_precedence(op[-1], token.sym):
q.append(op.pop())`.  The operator stack is kept with its top at the head
(Python appends and pops at the right end of `op`). -/
def popWhile (q op : List String) (s : String) :
    Except PyErr (List String × List String) :=
  match op with
  | [] => .ok (q, [])
  | topv :: restOp =>
    if topv ≠ "(" then
      match has_precedence topv s with
      | .error e => .error e
      | .ok true => popWhile (q ++ [topv]) restOp s
      | .ok false => .ok (q, topv :: restOp)
    else .ok (q, topv :: restOp)

/-- The inner `while` of the right-bracket case:
`while len(op) > 0 and op[-1] != "(": q.append(op.pop())`. -/
def popTilParen (q op : List String) : List String × List String :=
  match op with
  | [] => (q, [])
  | topv :: restOp =>
    if topv ≠ "(" then popTilParen (q ++ [topv]) restOp
    else (q, topv :: restOp)

/-- The token-scanning loop of the postfix converter.  Mirrors the source:
first an unconditional append for num/dummy tokens, then the
leftb / oper / rightb chain; a token setting none of those flags falls
through with no effect.  The final drain `while len(op) > 0:
q.append(op.pop())` appends the stack in top-first order. -/
def postfixLoop (ts : List token) (q op : List String) :
    Except PyErr (List String) :=
  match ts with
  | [] => .ok (q ++ op)
  | t :: rest =>
    let q1 := if t.is_num || t.is_dummy then q ++ [t.sym] else q
    if t.is_leftb then
      postfixLoop rest q1 (t.sym :: op)
    else if t.is_oper then
      if op.length > 0 then
        match popWhile q1 op t.sym with
        | .error e => .error e
        | .ok (q2, op2) => postfixLoop rest q2 (t.sym :: op2)
      else postfixLoop rest q1 (t.sym :: op)
    else if t.is_rightb then
      match popTilParen q1 op with
      | (q2, op2) =>
        match op2 with
        | [] => .error .indexError
        | _ :: op3 => postfixLoop rest q2 op3
    else postfixLoop rest q1 op

/-- Source `postfix(e)` (the infix-to-postfix shunting-yard converter; the
source function is named `postfix`, renamed here).  Tokenizes and runs the
scanning loop with empty output and operator stack. -/
def postfixList (s : String) : Except PyErr (List String) := do
  let ts ← tokenize s
  postfixLoop ts [] []

end expr

namespace ast

/-- A node object of `ast.py` (`node.__init__`): symbol, parent, left, right.
Object references are arena indices; `Option` models `None`. -/
structure PyNode where
  sym : String
  parent : Option Nat
  left : Option Nat
  right : Option Nat
deriving DecidableEq

/-- An `astree` object together with the arena of all node objects it has
allocated.  `root` and `cur` are the two reference fields of `astree`. -/
structure astreeSt where
  nodes : List PyNode
  root : Option Nat
  cur : Option Nat
deriving DecidableEq

/-- A freshly constructed `astree()`: `root = None`, `cur = None`. -/
def astreeInit : astreeSt := ⟨[], none, none⟩

/-- Dereference an arena index (indices created by the embedding are always
in range; the default is never reached on reachable states). -/
def getNode (nodes : List PyNode) (i : Nat) : PyNode :=
  nodes.getD i ⟨"", none, none, none⟩

/-- Access to `expr.is_unary`: the module `expr.py` defines no name
`is_unary` (its classifier `is_func` has a `pass` body), so every reference
faults with AttributeError. -/
def expr_is_unary (_s : String) : Except PyErr Bool :=
  .error (.attributeError "is_unary")

/-- Access to `expr.is_number`: `expr.py` defines no name `is_number`. -/
def expr_is_number (_s : String) : Except PyErr Bool :=
  .error (.attributeError "is_number")

/-- Access to `expr.is_special_number`: `expr.py` defines no such name. -/
def expr_is_special_number (_s : String) : Except PyErr Bool :=
  .error (.attributeError "is_special_number")

/-- Access to `expr.special_number[s]`: `expr.py` defines no name
`special_number`. -/
def expr_special_number (_s : String) : Except PyErr Rat :=
  .error (.attributeError "special_number")

/-- Access to `expr.symbols[s](l, r)`: `expr.py` defines no name `symbols`. -/
def expr_symbols_apply (_s : String) (_l _r : Rat) : Except PyErr Rat :=
  .error (.attributeError "symbols")

/-- Call `expr.function_mapper[s](v)`: the registered entries are either
two-argument lambdas (`max`, `min`) or `None` (`sin`), so a one-argument
call raises TypeError; a missing key raises KeyError.  (Dead code: the
evaluator faults on `expr.is_unary` before ever reaching this.) -/
def function_mapper_call1 (s : String) (_v : Rat) : Except PyErr Rat :=
  if expr.function_mapper_keys.contains s then .error .typeError
  else .error .keyError

/-- Decimal digit run to a natural number (helper for `pyFloat`). -/
def digitsToNat (l : List Char) : Nat :=
  l.foldl (fun a c => a * 10 + (c.toNat - 48)) 0

/-- Python `float(s)` restricted to the integer lexemes the tokenizer can
produce.  (Dead code in the shipped evaluator.) -/
def pyFloat (s : String) : Except PyErr Rat :=
  if s.data ≠ [] ∧ s.data.all expr.is_digit then .ok (digitsToNat s.data)
  else .error .valueError

/-- The cursor walk-up loop of `astree.add`:
`while self.cur.left is not None or expr.is_unary(self.cur.sym):
self.cur = self.cur.parent`.  Evaluating the condition on a node whose
`left` is `None` consults the missing `expr.is_unary`; reaching a `None`
cursor faults on the `.left` access.  Fueled recursion. -/
def walkUp (nodes : List PyNode) : Nat → Option Nat → Except PyErr Nat
  | 0, _ => .error .fuelOut
  | _ + 1, none => .error (.attributeError "left")
  | fuel + 1, some c =>
    let cn := getNode nodes c
    if cn.left ≠ none then walkUp nodes fuel cn.parent
    else do
      let u ← expr_is_unary cn.sym
      if u then walkUp nodes fuel cn.parent else .ok c

/-- Source `astree.add(sym)`.  The source duplicates one insertion structure
across its symbol branch (`expr.is_symbol(sym) or expr.is_func(sym)`, where
`is_func` returns `None`) and its operand branch; the only difference is
whether the cursor moves to the newly attached node (`isLink` below).
New nodes are allocated at the end of the arena with `parent` set to the
attachment point. -/
def add (st : astreeSt) (sym : String) : Except PyErr astreeSt :=
  match st.root with
  | none =>
    let idx := st.nodes.length
    .ok ⟨st.nodes ++ [⟨sym, none, none, none⟩], some idx, some idx⟩
  | some _ =>
    match st.cur with
    | none => .error (.attributeError "right")
    | some c =>
      let cn := getNode st.nodes c
      let isLink := expr.is_symbol sym || pyTruthy (expr.is_func sym)
      if cn.right = none then
        let idx := st.nodes.length
        let nodes1 := (st.nodes.set c { cn with right := some idx }) ++
          [⟨sym, some c, none, none⟩]
        .ok ⟨nodes1, st.root, if isLink then some idx else st.cur⟩
      else do
        let g ← (if cn.left = none then do
                  let u ← expr_is_unary cn.sym
                  pure (!u)
                 else pure false)
        if g then
          let idx := st.nodes.length
          let nodes1 := (st.nodes.set c { cn with left := some idx }) ++
            [⟨sym, some c, none, none⟩]
          .ok ⟨nodes1, st.root, if isLink then some idx else st.cur⟩
        else do
          let c2 ← walkUp st.nodes (st.nodes.length + 1) (some c)
          let cn2 := getNode st.nodes c2
          let idx := st.nodes.length
          let nodes1 := (st.nodes.set c2 { cn2 with left := some idx }) ++
            [⟨sym, some c2, none, none⟩]
          .ok ⟨nodes1, st.root, if isLink then some idx else some c2⟩

/-- The tree-building loop of `build`:
`while len(p) > 0: ast.add(p.pop())` — `pop()` removes the LAST element,
so the postfix list is consumed in reverse. -/
def buildFromPostfix (p : List String) : Except PyErr astreeSt :=
  p.reverse.foldlM add astreeInit

/-- Space stripping of `build`: `e.replace(" ", "")`. -/
def stripSpaces (e : String) : String := ⟨e.data.filter (· ≠ ' ')⟩

/-- Source `build(e)`: strip spaces (`e.replace(" ", "")`), convert to
postfix, then add symbols popped from the end of the postfix list. -/
def build (e : String) : Except PyErr astreeSt := do
  let p ← expr.postfixList (stripSpaces e)
  buildFromPostfix p

/-- The recursive `travel` of `astree.postorder` (console printing ignored):
left subtree, right subtree, then the node's symbol.  Fueled; `none` marks
fuel exhaustion, impossible on the acyclic arenas `build` produces. -/
def postorderAux (nodes : List PyNode) : Nat → Option Nat → Option (List String)
  | _, none => some []
  | 0, some _ => none
  | fuel + 1, some i =>
    let nd := getNode nodes i
    match postorderAux nodes fuel nd.left, postorderAux nodes fuel nd.right with
    | some L, some R => some (L ++ R ++ [nd.sym])
    | _, _ => none

/-- Source `astree.postorder()`. -/
def postorder (st : astreeSt) : Option (List String) :=
  postorderAux st.nodes (st.nodes.length + 1) st.root

/-- The queue loop of `astree.bfs`: dequeue, read `.sym` (faulting on
`None`), enqueue the non-`None` children. -/
def bfsLoop (nodes : List PyNode) :
    Nat → List (Option Nat) → List String → Except PyErr (List String)
  | 0, _, _ => .error .fuelOut
  | _ + 1, [], s => .ok s
  | fuel + 1, q0 :: qrest, s =>
    match q0 with
    | none => .error (.attributeError "sym")
    | some i =>
      let nd := getNode nodes i
      let enq1 := match nd.left with | some l => [some l] | none => ([] : List (Option Nat))
      let enq2 := match nd.right with | some r => [some r] | none => ([] : List (Option Nat))
      bfsLoop nodes fuel (qrest ++ enq1 ++ enq2) (s ++ [nd.sym])

/-- Source `astree.bfs()`: the root reference is enqueued unconditionally
(`q.put(self.root)`) before the loop. -/
def bfs (st : astreeSt) : Except PyErr (List String) :=
  bfsLoop st.nodes (2 * st.nodes.length + 2) [st.root] []

/-- Source module-level `evaluate(node)`: `None` evaluates to `0`; any
actual node first consults the missing `expr.is_unary`.  The remaining
branches (numeric literal, special number, binary application) are embedded
although the `is_unary` consultation makes them unreachable. -/
def evaluate (nodes : List PyNode) : Nat → Option Nat → Except PyErr Rat
  | _, none => .ok 0
  | 0, some _ => .error .fuelOut
  | fuel + 1, some i =>
    let nd := getNode nodes i
    do
      let u ← expr_is_unary nd.sym
      if u then do
        let v ← evaluate nodes fuel nd.right
        function_mapper_call1 nd.sym v
      else do
        let isn ← expr_is_number nd.sym
        if isn then pyFloat nd.sym
        else do
          let isp ← expr_is_special_number nd.sym
          if isp then expr_special_number nd.sym
          else do
            let l ← evaluate nodes fuel nd.left
            let r ← evaluate nodes fuel nd.right
            expr_symbols_apply nd.sym l r

/-- Source `astree.evaluate()`: `evaluate(self.root)`. -/
def astreeEvaluate (st : astreeSt) : Except PyErr Rat :=
  evaluate st.nodes (st.nodes.length + 1) st.root

/-- Source `_clone(n)`: `n.copy()` duplicates `sym`, `parent`, `left`,
`right` verbatim (so the clone's `parent` still references the ORIGINAL
parent node), then `left`/`right` are overwritten with recursive clones.
Clones are allocated into the same arena; the index order of allocation
differs from CPython object creation order but identities are arbitrary. -/
def cloneAux (orig : List PyNode) :
    Nat → Option Nat → List PyNode → Option (List PyNode × Option Nat)
  | _, none, heap => some (heap, none)
  | 0, some _, _ => none
  | fuel + 1, some i, heap =>
    let nd := getNode orig i
    match cloneAux orig fuel nd.left heap with
    | none => none
    | some (h1, lidx) =>
      match cloneAux orig fuel nd.right h1 with
      | none => none
      | some (h2, ridx) =>
        some (h2 ++ [⟨nd.sym, nd.parent, lidx, ridx⟩], some h2.length)

/-- Source `astree.copy()`: a fresh `astree()` (so `cur = None`) whose root
is `_clone(self.root)`. -/
def astreeCopy (st : astreeSt) : Option astreeSt :=
  match cloneAux st.nodes (st.nodes.length + 1) st.root st.nodes with
  | none => none
  | some (h, r) => some ⟨h, r, none⟩

end ast

/-- Parent references strictly decrease in index: true of every arena the
tree builder creates, since children are allocated after their parents. -/
def ast.parentDec (nodes : List ast.PyNode) : Prop :=
  ∀ i p, (ast.getNode nodes i).parent = some p → p < i

/-- The node the arena of a successful `buildFromPostfix r.reverse` holds at
index `i`: symbol `r[i]`, parent `i-1`, no left child, right child `i+1`
(the arena is a pure right spine). -/
def ast.nodeAt (r : List String) (i : Nat) : ast.PyNode :=
  ⟨r.getD i "",
   if i = 0 then none else some (i - 1),
   none,
   if i + 1 < r.length then some (i + 1) else none⟩

/-- The chain invariant of tree-builder states reachable by successful
`add` calls on a nonempty symbol sequence `r` (in insertion order). -/
def ast.chainInv (r : List String) (st : ast.astreeSt) : Prop :=
  r ≠ [] ∧
  st.nodes.length = r.length ∧
  (∀ i, i < r.length → ast.getNode st.nodes i = ast.nodeAt r i) ∧
  st.root = some 0 ∧
  ∃ c, c < r.length ∧ st.cur = some c

/-- Flag exclusivity for a Function token: the tokenizer only ever sets one
kind flag per token. -/
def expr.funcFlagOnly (t : expr.token) : Prop :=
  t.is_func = true →
    t.is_num = false ∧ t.is_dummy = false ∧ t.is_oper = false ∧
    t.is_leftb = false ∧ t.is_rightb = false

/-- Precedence assigned by the `_OPS` table (0 for unknown symbols). -/
def precOf (s : String) : Nat := ((expr._OPS s).getD ⟨0, 0⟩).precedence

/-- Associativity assigned by the `_OPS` table (0 for unknown symbols). -/
def assocOf (s : String) : Nat := ((expr._OPS s).getD ⟨0, 0⟩).associativity

/-- C1: the claim says the built tree of `"3+4*2"` evaluates to `11.0` (and
similarly for the other pipeline examples).  The shipped code cannot do
this: the postfix conversion is correct, but `build` faults with
AttributeError because `astree.add` consults `expr.is_unary`, which the
`expr` module never defines.  This theorem evaluates the code at the
failing input. -/
theorem c1_pipeline_faults_on_is_unary :
    ast.build "3+4*2" = .error (.attributeError "is_unary") ∧
    ast.build "(3+4)*2" = .error (.attributeError "is_unary") ∧
    ast.build "2^3^2" = .error (.attributeError "is_unary") ∧
    ast.build "10/2/5" = .error (.attributeError "is_unary") ∧
    expr.postfixList "3+4*2" = .ok ["3", "4", "2", "*", "+"] ∧
    expr.postfixList "(3+4)*2" = .ok ["3", "4", "+", "2", "*"] ∧
    expr.postfixList "2^3^2" = .ok ["2", "3", "2", "^", "^"] ∧
    expr.postfixList "10/2/5" = .ok ["10", "2", "/", "5", "/"] := by
  refine ⟨?_, ?_, ?_, ?_, ?_, ?_, ?_, ?_⟩ <;> rfl

/-- C3: the claim says unbalanced parentheses always fault with a clearly
named unbalanced-parentheses condition and never complete silently.  The
code instead raises a bare IndexError (pop from an empty list) for an
excess closing parenthesis, and for an excess opening parenthesis it
completes silently, leaking `"("` into the postfix output. -/
theorem c3_unbalanced_parens_behaviour :
    expr.postfixList ")1(" = .error .indexError ∧
    expr.postfixList "(1+2" = .ok ["1", "2", "+", "("] := by
  constructor <;> rfl

/-- C5: `has_precedence(a, b)` is true iff b is right-associative and
`prec a > prec b`, or b is left-associative and `prec a ≥ prec b`, for all
operators in the table; on the diagonal it is false exactly for `^`. -/
theorem c5_has_precedence_table :
    (expr._OPS "^" = some ⟨4, expr._RIGHT⟩ ∧
     expr._OPS "*" = some ⟨3, expr._LEFT⟩ ∧
     expr._OPS "/" = some ⟨3, expr._LEFT⟩ ∧
     expr._OPS "+" = some ⟨2, expr._LEFT⟩ ∧
     expr._OPS "-" = some ⟨2, expr._LEFT⟩) ∧
    (∀ a b, a ∈ expr.basic_opeartors_mapper_keys →
      b ∈ expr.basic_opeartors_mapper_keys →
      (expr.has_precedence a b = .ok true ↔
        ((assocOf b = expr._RIGHT ∧ precOf a > precOf b) ∨
         (assocOf b = expr._LEFT ∧ precOf a ≥ precOf b)))) ∧
    expr.has_precedence "^" "^" = .ok false ∧
    (∀ op, op ∈ (["*", "/", "+", "-"] : List String) →
      expr.has_precedence op op = .ok true) := by
  refine ⟨by refine ⟨rfl, rfl, rfl, rfl, rfl⟩, ?_, by rfl, ?_⟩
  · intro a b ha hb
    fin_cases ha <;> fin_cases hb <;> decide
  · intro op hop
    fin_cases hop <;> rfl

/-- Witness for C5 at concrete operators: `has_precedence("+", "*")` is
false by the table rule, and `has_precedence("*", "*")` is true. -/
theorem c5_has_precedence_table_witness :
    (expr.has_precedence "+" "*" = .ok true ↔
      ((assocOf "*" = expr._RIGHT ∧ precOf "+" > precOf "*") ∨
       (assocOf "*" = expr._LEFT ∧ precOf "+" ≥ precOf "*"))) ∧
    expr.has_precedence "*" "*" = .ok true :=
  ⟨c5_has_precedence_table.2.1 "+" "*" (by decide) (by decide),
   c5_has_precedence_table.2.2.2 "*" (by decide)⟩

/-- C8: the claim describes the evaluator's leaf cases.  The `None` case
does return 0, but a node holding a numeric literal (or `pi`) never reaches
the parsing/constant branches: the evaluator first consults the missing
`expr.is_unary` and faults with AttributeError. -/
theorem c8_evaluate_leaf_cases :
    (∀ nodes fuel, ast.evaluate nodes fuel none = .ok 0) ∧
    (∀ fuel, ast.evaluate [⟨"3", none, none, none⟩] (fuel + 1) (some 0) =
      .error (.attributeError "is_unary")) ∧
    (∀ fuel, ast.evaluate [⟨"pi", none, none, none⟩] (fuel + 1) (some 0) =
      .error (.attributeError "is_unary")) := by
  refine ⟨?_, ?_, ?_⟩
  · intro nodes fuel
    cases fuel <;> rfl
  · intro fuel; rfl
  · intro fuel; rfl

/-- C10: `bfs()` on a freshly constructed, empty `astree` enqueues the
`None` root unconditionally and faults reading `.sym` on it, instead of
returning an empty list. -/
theorem c10_bfs_empty_tree_faults :
    ast.bfs ast.astreeInit = .error (.attributeError "sym") := by rfl

/-- C4 counterexample: the claim says a Function token's lexeme is appended
to the output like a Number token, so every function name in the input
appears in the postfix list.  In fact the converter's append branch tests
only `is_num`/`is_dummy`, so the Function token `sin` of `"sin(3)"` is
dropped: the output is `["3"]` and contains no `"sin"`. -/
theorem c4_function_tokens_dropped_counterexample :
    expr.postfixList "sin(3)" = .ok ["3"] ∧
    ("sin" : String) ∉ (["3"] : List String) := by
  constructor <;> decide

/-- C6 counterexample: the claim's round trip requires a built tree for
every expression, but `build "2*3"` faults (the insertion logic consults
the missing `expr.is_unary`), so no tree exists whose postorder could be
compared with the postfix list `["2", "3", "*"]`. -/
theorem c6_round_trip_counterexample :
    ast.build "2*3" = .error (.attributeError "is_unary") ∧
    expr.postfixList "2*3" = .ok ["2", "3", "*"] := by
  constructor <;> rfl

/-- C7 counterexample: cloning the (buildable) tree of the postfix list
`["3", "+"]` yields clone nodes at indices 2 and 3, and the cloned leaf at
index 2 keeps `parent = some 0` — the ROOT NODE OF THE SOURCE TREE — so
the clone shares a node with its source through a parent reference,
contradicting the claim. -/
theorem c7_clone_shares_parent_counterexample :
    ast.buildFromPostfix ["3", "+"] =
      .ok ⟨[⟨"+", none, none, some 1⟩, ⟨"3", some 0, none, none⟩],
        some 0, some 0⟩ ∧
    ast.astreeCopy
        ⟨[⟨"+", none, none, some 1⟩, ⟨"3", some 0, none, none⟩],
          some 0, some 0⟩ =
      some ⟨[⟨"+", none, none, some 1⟩, ⟨"3", some 0, none, none⟩,
             ⟨"3", some 0, none, none⟩, ⟨"+", none, none, some 2⟩],
        some 3, none⟩ ∧
    (ast.getNode
        [⟨"+", none, none, some 1⟩, ⟨"3", some 0, none, none⟩,
         ⟨"3", some 0, none, none⟩, ⟨"+", none, none, some 2⟩] 2).parent =
      some 0 := by
  refine ⟨by rfl, by rfl, by rfl⟩

/-- Reading below the appended tail of an arena is unchanged. -/
theorem getNode_append_lt (nodes : List ast.PyNode) (tail : List ast.PyNode)
    (i : Nat) (h : i < nodes.length) :
    ast.getNode (nodes ++ tail) i = ast.getNode nodes i := by
  simp [ast.getNode, List.getD_eq_getElem?_getD, List.getElem?_append, h]

/-- Reading the first appended node of an arena. -/
theorem getNode_append_self (nodes : List ast.PyNode) (w : ast.PyNode) :
    ast.getNode (nodes ++ [w]) nodes.length = w := by
  simp [ast.getNode, List.getD_eq_getElem?_getD]

/-- Reading inside the appended tail of an arena. -/
theorem getNode_append_add (a b : List ast.PyNode) (k : Nat) :
    ast.getNode (a ++ b) (a.length + k) = ast.getNode b k := by
  simp [ast.getNode, List.getD_eq_getElem?_getD,
    List.getElem?_append_right (Nat.le_add_right a.length k)]

/-- Reading away from an updated index is unchanged. -/
theorem getNode_set_ne (nodes : List ast.PyNode) (c i : Nat) (v : ast.PyNode)
    (h : c ≠ i) :
    ast.getNode (nodes.set c v) i = ast.getNode nodes i := by
  simp [ast.getNode, List.getD_eq_getElem?_getD, List.getElem?_set_ne h]

/-- Reading an updated in-range index yields the new node. -/
theorem getNode_set_self (nodes : List ast.PyNode) (c : Nat) (v : ast.PyNode)
    (h : c < nodes.length) :
    ast.getNode (nodes.set c v) c = v := by
  simp [ast.getNode, List.getD_eq_getElem?_getD, List.getElem?_set_self h]

/-- Reading out of range yields the inert default node. -/
theorem getNode_oob (nodes : List ast.PyNode) (i : Nat)
    (h : nodes.length ≤ i) :
    ast.getNode nodes i = ⟨"", none, none, none⟩ := by
  simp [ast.getNode, List.getD_eq_getElem?_getD, List.getElem?_eq_none h]

/-- Binding a fault propagates it (Python exception propagation). -/
theorem error_bind {α β : Type} (e : PyErr) (f : α → Except PyErr β) :
    (Except.error e >>= f) = Except.error e := rfl

/-- The cursor walk-up loop can never terminate normally: its exit requires
`expr.is_unary` to return false, but the attribute does not exist. -/
theorem walkUp_not_ok (nodes : List ast.PyNode) :
    ∀ fuel cur c2, ast.walkUp nodes fuel cur ≠ .ok c2 := by
  intro fuel
  induction fuel with
  | zero => intro cur c2 h; cases cur <;> simp [ast.walkUp] at h
  | succ n ih =>
    intro cur c2 h
    cases cur with
    | none => simp [ast.walkUp] at h
    | some c =>
      simp only [ast.walkUp] at h
      by_cases hl : (ast.getNode nodes c).left ≠ none
      · rw [if_pos hl] at h; exact ih _ _ h
      · rw [if_neg hl] at h
        rw [ast.expr_is_unary, error_bind] at h
        simp at h

/-- On a parent-decreasing arena with enough fuel, the walk-up loop always
faults with an attribute error: either `expr.is_unary` is consulted on a
node without a left child, or the cursor escapes past the root and `.left`
is read on `None`. -/
theorem walkUp_attribute (nodes : List ast.PyNode) (hP : ast.parentDec nodes) :
    ∀ fuel c, c + 2 ≤ fuel →
      ∃ s, ast.walkUp nodes fuel (some c) = .error (.attributeError s) := by
  intro fuel
  induction fuel with
  | zero => intro c h; omega
  | succ n ih =>
    intro c h
    by_cases hl : (ast.getNode nodes c).left ≠ none
    · cases hp : (ast.getNode nodes c).parent with
      | none =>
        refine ⟨"left", ?_⟩
        simp only [ast.walkUp, if_pos hl, hp]
        cases n with
        | zero => omega
        | succ m => simp [ast.walkUp]
      | some p =>
        have hpc : p < c := hP c p hp
        obtain ⟨s, hs⟩ := ih p (by omega)
        exact ⟨s, by simp only [ast.walkUp, if_pos hl, hp]; exact hs⟩
    · refine ⟨"is_unary", ?_⟩
      simp only [ast.walkUp, if_neg hl]
      rfl

theorem ok_bind {α β : Type} (a : α) (f : α → Except PyErr β) :
    (Except.ok a >>= f) = f a := rfl

theorem add_right_occupied_error (nodes : List ast.PyNode) (root0 cur0 : Nat)
    (sym : String) (hP : ast.parentDec nodes)
    (hright : (ast.getNode nodes cur0).right ≠ none) :
    ∃ s, ast.add ⟨nodes, some root0, some cur0⟩ sym =
      .error (.attributeError s) := by
  have hlt : cur0 < nodes.length := by
    by_contra hge
    rw [getNode_oob nodes cur0 (le_of_not_lt hge)] at hright
    exact hright rfl
  simp only [ast.add]
  rw [if_neg hright]
  by_cases hleft : (ast.getNode nodes cur0).left = none
  · refine ⟨"is_unary", ?_⟩
    rw [if_pos hleft, ast.expr_is_unary, error_bind, error_bind]
  · rw [if_neg hleft]
    have hw := walkUp_attribute nodes hP (nodes.length + 1) cur0 (by omega)
    obtain ⟨s, hs⟩ := hw
    refine ⟨s, ?_⟩
    rw [show (pure false : Except PyErr Bool) = Except.ok false from rfl, ok_bind]
    simp only [Bool.false_eq_true, if_false]
    rw [hs, error_bind]

theorem chainInv_parentDec (r : List String) (st : ast.astreeSt)
    (hInv : ast.chainInv r st) : ast.parentDec st.nodes := by
  obtain ⟨hne, hlen, hnodes, hroot, c, hc, hcur⟩ := hInv
  intro i p hp
  by_cases hi : i < r.length
  · rw [hnodes i hi] at hp
    simp only [ast.nodeAt] at hp
    by_cases h0 : i = 0
    · rw [if_pos h0] at hp; cases hp
    · rw [if_neg h0] at hp
      injection hp with hp
      omega
  · rw [getNode_oob st.nodes i (by omega)] at hp
    cases hp


theorem getNode_append_at (a : List ast.PyNode) (w : ast.PyNode) (n : Nat)
    (h : a.length = n) : ast.getNode (a ++ [w]) n = w := by
  subst h; exact getNode_append_self a w

theorem getDString_append_lt (r tail : List String) (i : Nat)
    (h : i < r.length) : (r ++ tail).getD i "" = r.getD i "" := by
  simp [List.getD_eq_getElem?_getD, List.getElem?_append, h]

theorem add_chain_step (r : List String) (st st' : ast.astreeSt) (s : String)
    (hInv : ast.chainInv r st) (h : ast.add st s = .ok st') :
    ast.chainInv (r ++ [s]) st' := by
  have hP := chainInv_parentDec r st hInv
  obtain ⟨hne, hlen, hnodes, hroot, c, hc, hcur⟩ := hInv
  rcases st with ⟨nodes, root, cur⟩
  simp only at hlen hnodes hroot hcur hP
  subst hroot; subst hcur
  by_cases hR : (ast.getNode nodes c).right = none
  · have hcr : c + 1 = r.length := by
      have hcn := hnodes c hc
      rw [hcn] at hR
      simp only [ast.nodeAt] at hR
      by_cases h1 : c + 1 < r.length
      · rw [if_pos h1] at hR; cases hR
      · omega
    have h0 : ¬(r.length = 0) := by
      cases r
      · exact absurd rfl hne
      · simp
    simp only [ast.add] at h
    rw [if_pos hR] at h
    injection h with h
    subst h
    have hsetlen : (nodes.set c
        { ast.getNode nodes c with right := some nodes.length }).length = r.length := by
      simp [hlen]
    refine ⟨by simp, by simp [hlen], ?_, rfl, ?_⟩
    · intro i hi
      simp only [List.length_append, List.length_singleton] at hi
      by_cases hend : i = r.length
      · subst hend
        rw [getNode_append_at _ _ _ hsetlen]
        simp only [ast.nodeAt, List.length_append, List.length_singleton]
        rw [List.getD_eq_getElem?_getD, List.getElem?_concat_length]
        rw [if_neg h0]
        have hc1 : r.length - 1 = c := by omega
        rw [hc1]
        simp
      · have hilt : i < r.length := by omega
        rw [getNode_append_lt _ _ i (by rw [hsetlen]; exact hilt)]
        by_cases hic : i = c
        · subst hic
          rw [getNode_set_self _ _ _ (by omega), hnodes i hc]
          simp only [ast.nodeAt, List.length_append, List.length_singleton]
          rw [getDString_append_lt r [s] i hilt]
          rw [if_pos (by omega : i + 1 < r.length + 1)]
          rw [hlen, hcr]
        · rw [getNode_set_ne _ _ _ _ (fun hh => hic hh.symm), hnodes i hilt]
          simp only [ast.nodeAt, List.length_append, List.length_singleton]
          rw [getDString_append_lt r [s] i hilt]
          have hi1 : i + 1 < r.length := by omega
          rw [if_pos hi1, if_pos (by omega : i + 1 < r.length + 1)]
    · by_cases hlink : (expr.is_symbol s || pyTruthy (expr.is_func s)) = true
      · refine ⟨nodes.length, ?_, ?_⟩
        · simp only [List.length_append, List.length_singleton]; omega
        · simp only [hlink, if_true]
      · refine ⟨c, ?_, ?_⟩
        · simp only [List.length_append, List.length_singleton]; omega
        · simp [hlink]
  · obtain ⟨s2, hs2⟩ := add_right_occupied_error nodes 0 c s hP hR
    rw [hs2] at h
    cases h

theorem foldlM_add_chain :
    ∀ (rest r : List String) (st st' : ast.astreeSt),
      ast.chainInv r st → List.foldlM ast.add st rest = .ok st' →
      ast.chainInv (r ++ rest) st' := by
  intro rest
  induction rest with
  | nil =>
    intro r st st' hInv h
    simp only [List.foldlM] at h
    injection h with h
    subst h
    simpa using hInv
  | cons s rest ih =>
    intro r st st' hInv h
    rw [List.foldlM_cons] at h
    cases hadd : ast.add st s with
    | error e => rw [hadd, error_bind] at h; cases h
    | ok st1 =>
      rw [hadd, ok_bind] at h
      have hInv1 := add_chain_step r st st1 s hInv hadd
      have hres := ih (r ++ [s]) st1 st' hInv1 h
      simpa [List.append_assoc] using hres

theorem buildFromPostfix_chain (l : List String) (st : ast.astreeSt)
    (h : ast.buildFromPostfix l = .ok st) :
    (l = [] ∧ st = ast.astreeInit) ∨ ast.chainInv l.reverse st := by
  unfold ast.buildFromPostfix at h
  cases hrev : l.reverse with
  | nil =>
    left
    rw [hrev] at h
    simp only [List.foldlM] at h
    injection h with h
    exact ⟨by simpa using congrArg List.reverse hrev, h.symm⟩
  | cons a rest =>
    right
    rw [hrev] at h
    rw [List.foldlM_cons] at h
    have hadd : ast.add ast.astreeInit a =
        .ok ⟨[⟨a, none, none, none⟩], some 0, some 0⟩ := rfl
    rw [hadd, ok_bind] at h
    have hInv1 : ast.chainInv [a] ⟨[⟨a, none, none, none⟩], some 0, some 0⟩ := by
      refine ⟨by simp, by simp, ?_, rfl, 0, by simp, rfl⟩
      intro i hi
      simp only [List.length_singleton] at hi
      have hi0 : i = 0 := by omega
      subst hi0
      simp [ast.getNode, ast.nodeAt]
    have hres := foldlM_add_chain rest [a] _ st hInv1 h
    exact hres

theorem postorderAux_none (nodes : List ast.PyNode) :
    ∀ fuel, ast.postorderAux nodes fuel none = some [] := by
  intro fuel; cases fuel <;> rfl

theorem getDString_eq (r : List String) (i : Nat) (h : i < r.length) :
    r.getD i "" = r.get ⟨i, h⟩ := by
  simp [List.getD_eq_getElem?_getD, List.getElem?_eq_getElem h]

theorem postorderAux_chain (nodes : List ast.PyNode) (r : List String)
    (hnodes : ∀ i, i < r.length → ast.getNode nodes i = ast.nodeAt r i) :
    ∀ fuel i, i < r.length → r.length - i ≤ fuel →
      ast.postorderAux nodes fuel (some i) = some ((r.drop i).reverse) := by
  intro fuel
  induction fuel with
  | zero => intro i h1 h2; omega
  | succ n ih =>
    intro i h1 h2
    simp only [ast.postorderAux]
    rw [hnodes i h1]
    simp only [ast.nodeAt]
    rw [postorderAux_none]
    have hdrop := List.drop_eq_getElem_cons h1
    by_cases hlast : i + 1 < r.length
    · rw [if_pos hlast]
      rw [ih (i + 1) hlast (by omega)]
      simp only [List.nil_append]
      rw [hdrop, List.reverse_cons]
      rw [getDString_eq r i h1]
      rfl
    · rw [if_neg hlast]
      rw [postorderAux_none]
      simp only [List.nil_append, List.append_nil]
      rw [hdrop, List.reverse_cons]
      rw [List.drop_eq_nil_of_le (by omega : r.length ≤ i + 1)]
      rw [getDString_eq r i h1]
      rfl

theorem buildFromPostfix_postorder (l : List String) (st : ast.astreeSt)
    (h : ast.buildFromPostfix l = .ok st) : ast.postorder st = some l := by
  rcases buildFromPostfix_chain l st h with ⟨hl, hst⟩ | hInv
  · subst hst; subst hl; rfl
  · obtain ⟨hne, hlen, hnodes, hroot, _⟩ := hInv
    unfold ast.postorder
    rw [hroot]
    have hpos : 0 < l.reverse.length := by
      cases hrev : l.reverse with
      | nil => exact absurd hrev hne
      | cons a rest => simp [hrev]
    rw [postorderAux_chain st.nodes l.reverse hnodes _ 0 hpos (by omega)]
    simp

/-- C2: whenever the cursor node's right child is already occupied — as the
insertion of the third symbol of any binary application such as `"1+2"`
requires — `astree.add` faults with an attribute error, because the
insertion logic consults `expr.is_unary`, a name the `expr` module does not
define; consequently `build` on `"1+2"` faults, and no successfully built
arena ever contains a node with a left child (hence never a binary-operator
node with both children). -/
theorem c2_add_is_unary_attribute_fault :
    (∀ nodes root0 cur0 sym, ast.parentDec nodes →
        (ast.getNode nodes cur0).right ≠ none →
        ∃ s, ast.add ⟨nodes, some root0, some cur0⟩ sym =
          .error (.attributeError s)) ∧
    ast.build "1+2" = .error (.attributeError "is_unary") ∧
    (∀ l st, ast.buildFromPostfix l = .ok st →
      ∀ i, (ast.getNode st.nodes i).left = none) := by
  refine ⟨fun nodes root0 cur0 sym hP hr =>
    add_right_occupied_error nodes root0 cur0 sym hP hr, by rfl, ?_⟩
  intro l st h i
  rcases buildFromPostfix_chain l st h with ⟨_, hst⟩ | hInv
  · subst hst
    rw [getNode_oob _ _ (by simp [ast.astreeInit])]
  · obtain ⟨_, hlen, hnodes, _, _⟩ := hInv
    by_cases hi : i < l.reverse.length
    · rw [hnodes i hi]; rfl
    · rw [getNode_oob _ _ (by omega)]

/-- Witness for C2 at the concrete state reached while building `"1+2"`:
root `+` with occupied right child `2`, cursor at the root, adding `1`. -/
theorem c2_add_is_unary_attribute_fault_witness :
    ∃ s, ast.add ⟨[⟨"+", none, none, some 1⟩, ⟨"2", some 0, none, none⟩],
        some 0, some 0⟩ "1" = .error (.attributeError s) :=
  c2_add_is_unary_attribute_fault.1
    [⟨"+", none, none, some 1⟩, ⟨"2", some 0, none, none⟩] 0 0 "1"
    (by
      intro i p hp
      match i with
      | 0 => simp [ast.getNode] at hp
      | 1 => simp [ast.getNode] at hp; omega
      | n + 2 => simp [ast.getNode, List.getD] at hp)
    (by decide)

/-- C6 amended: whenever `build e` actually returns a tree, the postorder
readout of that tree equals the postfix list computed for (space-stripped)
`e`; the original claim's "for every expression" fails because `build`
faults on every binary application (see the counterexample). -/
theorem c6_postorder_postfix_round_trip :
    ∀ e st, ast.build e = .ok st →
      ∃ p, expr.postfixList (ast.stripSpaces e) = .ok p ∧
        ast.postorder st = some p := by
  intro e st h
  unfold ast.build at h
  cases hp : expr.postfixList (ast.stripSpaces e) with
  | error er => rw [hp, error_bind] at h; cases h
  | ok p =>
    rw [hp, ok_bind] at h
    exact ⟨p, rfl, buildFromPostfix_postorder p st h⟩

/-- Witness for C6 at `e = "3+"`, one of the degenerate inputs `build` can
actually finish: the postfix list is `["3", "+"]` and so is the postorder
readout of the resulting right-spine tree. -/
theorem c6_postorder_postfix_round_trip_witness :
    ∃ p, expr.postfixList (ast.stripSpaces "3+") = .ok p ∧
      ast.postorder ⟨[⟨"+", none, none, some 1⟩, ⟨"3", some 0, none, none⟩],
        some 0, some 0⟩ = some p :=
  c6_postorder_postfix_round_trip "3+"
    ⟨[⟨"+", none, none, some 1⟩, ⟨"3", some 0, none, none⟩],
      some 0, some 0⟩ (by rfl)

theorem cloneAux_none (orig : List ast.PyNode) :
    ∀ fuel heap, ast.cloneAux orig fuel none heap = some (heap, none) := by
  intro fuel heap; cases fuel <;> rfl


theorem cloneAux_chain (r : List String) (nodes : List ast.PyNode)
    (hnodes : ∀ i, i < r.length → ast.getNode nodes i = ast.nodeAt r i) :
    ∀ fuel i heap, i < r.length → r.length - i ≤ fuel →
      ∃ newPart : List ast.PyNode,
        ast.cloneAux nodes fuel (some i) heap =
          some (heap ++ newPart, some (heap.length + newPart.length - 1)) ∧
        newPart.length = r.length - i ∧
        (∀ k, k < r.length - i →
          ast.getNode newPart k =
            ⟨r.getD (r.length - 1 - k) "",
             (ast.nodeAt r (r.length - 1 - k)).parent,
             none,
             if k = 0 then none else some (heap.length + k - 1)⟩) := by
  intro fuel
  induction fuel with
  | zero => intro i heap h1 h2; omega
  | succ m ih =>
    intro i heap h1 h2
    have hLeft : ast.cloneAux nodes m (ast.getNode nodes i).left heap =
        some (heap, none) := by
      rw [hnodes i h1]
      exact cloneAux_none nodes m heap
    by_cases hlast : i + 1 < r.length
    · obtain ⟨np1, heq, hlen1, hprop1⟩ := ih (i + 1) heap hlast (by omega)
      have hRight : ast.cloneAux nodes m (ast.getNode nodes i).right heap =
          some (heap ++ np1, some (heap.length + np1.length - 1)) := by
        have hri : (ast.getNode nodes i).right = some (i + 1) := by
          rw [hnodes i h1]
          simp only [ast.nodeAt]
          rw [if_pos hlast]
        rw [hri]
        exact heq
      have hstep : ast.cloneAux nodes (m + 1) (some i) heap =
          some ((heap ++ np1) ++
            [⟨(ast.getNode nodes i).sym, (ast.getNode nodes i).parent,
              none, some (heap.length + np1.length - 1)⟩],
            some ((heap ++ np1).length)) := by
        simp only [ast.cloneAux]
        rw [hLeft]
        dsimp only
        rw [hRight]
      rw [hstep]
      refine ⟨np1 ++ [⟨(ast.getNode nodes i).sym, (ast.getNode nodes i).parent,
        none, some (heap.length + np1.length - 1)⟩], ?_, ?_, ?_⟩
      · rw [List.append_assoc]
        have hL : heap.length + (np1.length + 1) - 1 = heap.length + np1.length := by
          omega
        simp only [List.length_append, List.length_singleton, hL]
      · simp only [List.length_append, List.length_singleton]; omega
      · intro k hk
        by_cases hke : k = np1.length
        · subst hke
          rw [getNode_append_at _ _ _ rfl]
          have h1k : r.length - 1 - np1.length = i := by omega
          rw [h1k, hnodes i h1]
          simp only [ast.nodeAt]
          have hk0 : ¬(np1.length = 0) := by omega
          rw [if_neg hk0]
        · have hklt : k < np1.length := by omega
          rw [getNode_append_lt _ _ _ hklt]
          exact hprop1 k (by omega)
    · have hRight : ast.cloneAux nodes m (ast.getNode nodes i).right heap =
          some (heap, none) := by
        have hri : (ast.getNode nodes i).right = none := by
          rw [hnodes i h1]
          simp only [ast.nodeAt]
          rw [if_neg hlast]
        rw [hri]
        exact cloneAux_none nodes m heap
      have hstep : ast.cloneAux nodes (m + 1) (some i) heap =
          some (heap ++
            [⟨(ast.getNode nodes i).sym, (ast.getNode nodes i).parent,
              none, none⟩],
            some heap.length) := by
        simp only [ast.cloneAux]
        rw [hLeft]
        dsimp only
        rw [hRight]
      rw [hstep]
      refine ⟨[⟨(ast.getNode nodes i).sym, (ast.getNode nodes i).parent,
        none, none⟩], ?_, ?_, ?_⟩
      · simp
      · simp only [List.length_singleton]; omega
      · intro k hk
        have hk0 : k = 0 := by omega
        subst hk0
        have h1k : r.length - 1 - 0 = i := by omega
        rw [h1k, hnodes i h1]
        simp only [ast.nodeAt, ast.getNode, List.getD_eq_getElem?_getD]
        rfl

theorem postorderAux_cloneChain (r : List String) (nodes np : List ast.PyNode)
    (hprop : ∀ k, k < r.length →
      ast.getNode np k =
        ⟨r.getD (r.length - 1 - k) "", (ast.nodeAt r (r.length - 1 - k)).parent,
         none, if k = 0 then none else some (nodes.length + k - 1)⟩) :
    ∀ fuel k, k < r.length → k + 1 ≤ fuel →
      ast.postorderAux (nodes ++ np) fuel (some (nodes.length + k)) =
        some ((r.drop (r.length - 1 - k)).reverse) := by
  intro fuel
  induction fuel with
  | zero => intro k h1 h2; omega
  | succ m ih =>
    intro k h1 h2
    simp only [ast.postorderAux]
    rw [getNode_append_add nodes np k, hprop k h1]
    simp only
    rw [postorderAux_none]
    have hidx : r.length - 1 - k < r.length := by omega
    have hdrop := List.drop_eq_getElem_cons hidx
    by_cases hk0 : k = 0
    · subst hk0
      rw [if_pos rfl, postorderAux_none]
      simp only [List.nil_append, List.append_nil]
      rw [hdrop, List.reverse_cons]
      rw [List.drop_eq_nil_of_le (by omega : r.length ≤ r.length - 1 - 0 + 1)]
      rw [getDString_eq r (r.length - 1 - 0) hidx]
      rfl
    · rw [if_neg hk0]
      have hsh : nodes.length + k - 1 = nodes.length + (k - 1) := by omega
      rw [hsh, ih (k - 1) (by omega) (by omega)]
      simp only [List.nil_append]
      have hsh2 : r.length - 1 - (k - 1) = r.length - 1 - k + 1 := by omega
      rw [hsh2, hdrop, List.reverse_cons]
      rw [getDString_eq r (r.length - 1 - k) hidx]
      rfl

/-- C7 amended: copying any tree the builder can produce yields a clone
whose directly owned structure is fresh and faithful — the arena doubles,
every original node is untouched (so mutating a clone node's fields cannot
change the original), and the clone's postorder readout equals the
original's — but each cloned node keeps the ORIGINAL node's `parent`
reference, so the clone still reaches source-tree nodes through `parent`
(the sharing exhibited by the counterexample). -/
theorem c7_copy_fresh_nodes_but_parent_shared :
    ∀ l st, ast.buildFromPostfix l = .ok st →
      ∃ st', ast.astreeCopy st = some st' ∧
        st'.nodes.length = 2 * st.nodes.length ∧
        (∀ i, i < st.nodes.length →
          ast.getNode st'.nodes i = ast.getNode st.nodes i) ∧
        ast.postorder st' = some l ∧
        ast.postorder st = some l ∧
        (∀ k, k < st.nodes.length →
          (ast.getNode st'.nodes (st.nodes.length + k)).parent =
            (ast.getNode st.nodes (st.nodes.length - 1 - k)).parent) := by
  intro l st h
  have hpost := buildFromPostfix_postorder l st h
  rcases buildFromPostfix_chain l st h with ⟨hl, hst⟩ | hInv
  · subst hst
    refine ⟨ast.astreeInit, by rfl, by rfl, ?_, ?_, hpost, ?_⟩
    · intro i hi; simp [ast.astreeInit] at hi
    · subst hl; rfl
    · intro k hk; simp [ast.astreeInit] at hk
  · obtain ⟨hne, hlen, hnodes, hroot, _⟩ := hInv
    have hn1 : 1 ≤ l.reverse.length := by
      cases hrev : l.reverse with
      | nil => exact absurd hrev hne
      | cons a rest => simp
    obtain ⟨np, heq, hlenp, hprop⟩ :=
      cloneAux_chain l.reverse st.nodes hnodes (st.nodes.length + 1) 0 st.nodes
        (by omega) (by omega)
    simp only [Nat.sub_zero] at hlenp hprop
    have hcopy : ast.astreeCopy st =
        some ⟨st.nodes ++ np, some (st.nodes.length + np.length - 1), none⟩ := by
      unfold ast.astreeCopy
      rw [hroot, heq]
    refine ⟨_, hcopy, ?_, ?_, ?_, hpost, ?_⟩
    · simp only [List.length_append]; omega
    · intro i hi; exact getNode_append_lt _ _ _ hi
    · unfold ast.postorder
      simp only
      have hidx : st.nodes.length + np.length - 1 =
          st.nodes.length + (l.reverse.length - 1) := by omega
      rw [hidx]
      rw [postorderAux_cloneChain l.reverse st.nodes np hprop _
        (l.reverse.length - 1) (by omega)
        (by simp only [List.length_append]; omega)]
      have hz : l.reverse.length - 1 - (l.reverse.length - 1) = 0 := by omega
      rw [hz]
      simp
    · intro k hk
      rw [getNode_append_add st.nodes np k]
      rw [hprop k (by omega)]
      simp only
      rw [hnodes (st.nodes.length - 1 - k) (by omega)]
      have hsh : l.reverse.length - 1 - k = st.nodes.length - 1 - k := by omega
      rw [hsh]

/-- Witness for C7 at the buildable postfix list `["3", "+"]`. -/
theorem c7_copy_fresh_nodes_but_parent_shared_witness :
    ∃ st', ast.astreeCopy
        ⟨[⟨"+", none, none, some 1⟩, ⟨"3", some 0, none, none⟩],
          some 0, some 0⟩ = some st' ∧
      st'.nodes.length = 2 * 2 ∧
      (∀ i, i < 2 →
        ast.getNode st'.nodes i =
          ast.getNode [⟨"+", none, none, some 1⟩, ⟨"3", some 0, none, none⟩] i) ∧
      ast.postorder st' = some ["3", "+"] ∧
      ast.postorder
        ⟨[⟨"+", none, none, some 1⟩, ⟨"3", some 0, none, none⟩],
          some 0, some 0⟩ = some ["3", "+"] ∧
      (∀ k, k < 2 →
        (ast.getNode st'.nodes (2 + k)).parent =
          (ast.getNode [⟨"+", none, none, some 1⟩, ⟨"3", some 0, none, none⟩]
            (2 - 1 - k)).parent) :=
  c7_copy_fresh_nodes_but_parent_shared ["3", "+"]
    ⟨[⟨"+", none, none, some 1⟩, ⟨"3", some 0, none, none⟩],
      some 0, some 0⟩ (by rfl)

theorem postfixLoop_congr_rest (rest1 rest2 : List expr.token)
    (h : ∀ q op, expr.postfixLoop rest1 q op = expr.postfixLoop rest2 q op)
    (t : expr.token) (q op : List String) :
    expr.postfixLoop (t :: rest1) q op = expr.postfixLoop (t :: rest2) q op := by
  simp only [expr.postfixLoop]
  by_cases hlb : t.is_leftb = true
  · simp only [hlb, if_true]
    exact h _ _
  · simp only [Bool.not_eq_true] at hlb
    simp only [hlb, Bool.false_eq_true, if_false]
    by_cases hop : t.is_oper = true
    · simp only [hop, if_true]
      by_cases hlen : op.length > 0
      · rw [if_pos hlen, if_pos hlen]
        cases hpw : expr.popWhile
            (if t.is_num || t.is_dummy then q ++ [t.sym] else q) op t.sym with
        | error e => rfl
        | ok p =>
          rcases p with ⟨q2, op2⟩
          exact h q2 (t.sym :: op2)
      · rw [if_neg hlen, if_neg hlen]
        exact h _ _
    · simp only [Bool.not_eq_true] at hop
      simp only [hop, Bool.false_eq_true, if_false]
      by_cases hrb : t.is_rightb = true
      · simp only [hrb, if_true]
        rcases hpt : expr.popTilParen
            (if t.is_num || t.is_dummy then q ++ [t.sym] else q) op with ⟨q2, op2⟩
        cases op2 with
        | nil => rfl
        | cons x op3 => exact h q2 op3
      · simp only [Bool.not_eq_true] at hrb
        simp only [hrb, Bool.false_eq_true, if_false]
        exact h _ _

theorem postfixLoop_filter_func :
    ∀ (ts : List expr.token) (q op : List String),
      (∀ t ∈ ts, expr.funcFlagOnly t) →
      expr.postfixLoop ts q op =
        expr.postfixLoop (ts.filter fun t2 => !t2.is_func) q op := by
  intro ts
  induction ts with
  | nil => intro q op _; rfl
  | cons t rest ih =>
    intro q op H
    have Ht := H t (List.mem_cons_self t rest)
    have Hr : ∀ x ∈ rest, expr.funcFlagOnly x :=
      fun x hx => H x (List.mem_cons_of_mem _ hx)
    rcases t with ⟨tsym, tn, tf, td, tor, tlb, trb⟩
    cases tf with
    | true =>
      obtain ⟨h1, h2, h3, h4, h5⟩ := Ht rfl
      simp only at h1 h2 h3 h4 h5
      subst h1; subst h2; subst h3; subst h4; subst h5
      simp only [List.filter_cons, Bool.not_true, Bool.false_eq_true, if_false]
      have hskip : expr.postfixLoop
          (⟨tsym, false, true, false, false, false, false⟩ :: rest) q op =
          expr.postfixLoop rest q op := rfl
      rw [hskip]
      exact ih q op Hr
    | false =>
      simp only [List.filter_cons, Bool.not_false, if_true]
      exact postfixLoop_congr_rest rest (rest.filter fun t2 => !t2.is_func)
        (fun q2 op2 => ih q2 op2 Hr) ⟨tsym, tn, false, td, tor, tlb, trb⟩ q op

theorem map_cons_ok (x : Except PyErr (List expr.token)) (tok : expr.token)
    (ts : List expr.token) (h : x.map (tok :: ·) = .ok ts) :
    ∃ ts1, x = .ok ts1 ∧ ts = tok :: ts1 := by
  cases x with
  | error e => simp [Except.map] at h
  | ok ts1 =>
    simp only [Except.map] at h
    injection h with h
    exact ⟨ts1, rfl, h.symm⟩

theorem funcFlagOnly_of_not_func (t : expr.token) (h : t.is_func = false) :
    expr.funcFlagOnly t := by
  intro hf; rw [h] at hf; cases hf

theorem funcFlagOnly_funcTok (s : String) :
    expr.funcFlagOnly (expr.token.funcTok s) :=
  fun _ => ⟨rfl, rfl, rfl, rfl, rfl⟩

theorem tokenizeLoop_flags (e : List Char) (starts ends : List Nat) :
    ∀ fuel index eindex ts,
      expr.tokenizeLoop e starts ends fuel index eindex = .ok ts →
      ∀ t ∈ ts, expr.funcFlagOnly t := by
  intro fuel
  induction fuel with
  | zero => intro index eindex ts h; simp [expr.tokenizeLoop] at h
  | succ n ih =>
    intro index eindex ts h
    simp only [expr.tokenizeLoop] at h
    split at h
    · split at h
      · split at h
        · simp at h
        · obtain ⟨ts1, hrec, hts⟩ := map_cons_ok _ _ _ h
          subst hts
          intro t ht
          rcases List.mem_cons.mp ht with rfl | hmem
          · exact funcFlagOnly_funcTok _
          · exact ih _ _ _ hrec t hmem
      · split at h
        · obtain ⟨ts1, hrec, hts⟩ := map_cons_ok _ _ _ h
          subst hts
          intro t ht
          rcases List.mem_cons.mp ht with rfl | hmem
          · exact funcFlagOnly_of_not_func _ rfl
          · exact ih _ _ _ hrec t hmem
        · split at h
          · obtain ⟨ts1, hrec, hts⟩ := map_cons_ok _ _ _ h
            subst hts
            intro t ht
            rcases List.mem_cons.mp ht with rfl | hmem
            · exact funcFlagOnly_of_not_func _ rfl
            · exact ih _ _ _ hrec t hmem
          · split at h
            · obtain ⟨ts1, hrec, hts⟩ := map_cons_ok _ _ _ h
              subst hts
              intro t ht
              rcases List.mem_cons.mp ht with rfl | hmem
              · exact funcFlagOnly_of_not_func _ rfl
              · exact ih _ _ _ hrec t hmem
            · split at h
              · obtain ⟨ts1, hrec, hts⟩ := map_cons_ok _ _ _ h
                subst hts
                intro t ht
                rcases List.mem_cons.mp ht with rfl | hmem
                · exact funcFlagOnly_of_not_func _ rfl
                · exact ih _ _ _ hrec t hmem
              · split at h
                · obtain ⟨ts1, hrec, hts⟩ := map_cons_ok _ _ _ h
                  subst hts
                  intro t ht
                  rcases List.mem_cons.mp ht with rfl | hmem
                  · exact funcFlagOnly_of_not_func _ rfl
                  · exact ih _ _ _ hrec t hmem
                · intro t ht
                  exact ih _ _ _ h t ht
    · intro t ht
      injection h with h
      subst h
      cases ht

/-- C4 amended: the converter gives Function tokens no treatment at all —
not operator handling, and not the direct append the claim asserts: its
append branch tests only `is_num`/`is_dummy`, so the output on any
tokenizer result equals the output on that result with every Function
token deleted (e.g. `postfix("sin(3)") = ["3"]`, with no `"sin"`). -/
theorem c4_postfix_ignores_function_tokens :
    ∀ e ts, expr.tokenize e = .ok ts →
      expr.postfixLoop ts [] [] =
        expr.postfixLoop (ts.filter fun t2 => !t2.is_func) [] [] := by
  intro e ts h
  unfold expr.tokenize at h
  exact postfixLoop_filter_func ts [] []
    (tokenizeLoop_flags _ _ _ _ _ _ ts h)

/-- Witness for C4 at `"sin(3)"`: the Function token `sin` is dropped. -/
theorem c4_postfix_ignores_function_tokens_witness :
    expr.postfixLoop
        [expr.token.funcTok "sin", expr.token.leftbTok "(",
         expr.token.numTok "3", expr.token.rightbTok ")"] [] [] =
      expr.postfixLoop
        ([expr.token.funcTok "sin", expr.token.leftbTok "(",
          expr.token.numTok "3", expr.token.rightbTok ")"].filter
          fun t2 => !t2.is_func) [] [] :=
  c4_postfix_ignores_function_tokens "sin(3)"
    [expr.token.funcTok "sin", expr.token.leftbTok "(",
     expr.token.numTok "3", expr.token.rightbTok ")"] (by rfl)

theorem _match_startsAux_ge :
    ∀ fuel (l : List Char) (i v : Nat),
      v ∈ expr._match_startsAux fuel l i → i ≤ v := by
  intro fuel
  induction fuel with
  | zero => intro l i v hv; simp [expr._match_startsAux] at hv
  | succ n ih =>
    intro l i v hv
    cases l with
    | nil => simp [expr._match_startsAux] at hv
    | cons c rest =>
      simp only [expr._match_startsAux] at hv
      by_cases hm : expr.matchesFuncAt (c :: rest) = true
      · rw [if_pos hm] at hv
        rcases List.mem_cons.mp hv with rfl | hmem
        · exact le_refl v
        · have := ih _ _ _ hmem; omega
      · rw [if_neg hm] at hv
        have := ih _ _ _ hv; omega

theorem _match_startsAux_pairwise :
    ∀ fuel (l : List Char) (i : Nat),
      (expr._match_startsAux fuel l i).Pairwise (· < ·) := by
  intro fuel
  induction fuel with
  | zero => intro l i; simp [expr._match_startsAux]
  | succ n ih =>
    intro l i
    cases l with
    | nil => simp [expr._match_startsAux]
    | cons c rest =>
      simp only [expr._match_startsAux]
      by_cases hm : expr.matchesFuncAt (c :: rest) = true
      · rw [if_pos hm]
        refine List.Pairwise.cons ?_ (ih _ _)
        intro v hv
        have := _match_startsAux_ge n _ _ v hv
        omega
      · rw [if_neg hm]; exact ih _ _

theorem takeWhile_pos_length {p : Char → Bool} (e : List Char) (index : Nat)
    (hin : index < e.length) (hp : p (e.get ⟨index, hin⟩) = true) :
    1 ≤ ((e.drop index).takeWhile p).length := by
  rw [List.drop_eq_getElem_cons hin, List.takeWhile_cons]
  split
  · simp
  · next hcon => exact absurd hp hcon

theorem tokenizeLoop_ok (e : List Char) (starts : List Nat)
    (hpw : starts.Pairwise (· < ·)) :
    ∀ fuel index eindex,
      (∀ m v, m < eindex → starts.get? m = some v → v < index) →
      ((starts.map (· + 3)).length - eindex) * (e.length + 1) +
        (e.length - index) < fuel →
      ∃ ts, expr.tokenizeLoop e starts (starts.map (· + 3)) fuel index eindex =
        .ok ts := by
  intro fuel
  induction fuel with
  | zero => intro index eindex _ hM; omega
  | succ n ih =>
    intro index eindex hK hM
    by_cases hin : index < e.length
    · simp only [expr.tokenizeLoop]
      rw [dif_pos hin]
      by_cases hst : starts.contains index = true
      · rw [if_pos hst]
        have hmem : index ∈ starts := List.elem_iff.mp hst
        obtain ⟨⟨m, hmlt⟩, hget⟩ := List.mem_iff_get.mp hmem
        have hem : eindex ≤ m := by
          by_contra hgt
          have hks := hK m index (by omega)
            (by rw [List.get?_eq_getElem?, List.getElem?_eq_getElem hmlt]
                exact congrArg some hget)
          omega
        have heil : eindex < starts.length := by omega
        have hsv : starts.get? eindex = some (starts.get ⟨eindex, heil⟩) :=
          List.get?_eq_get heil
        set sv := starts.get ⟨eindex, heil⟩ with hsvdef
        have hgv : (starts.map (· + 3)).get? eindex = some (sv + 3) := by
          rw [List.get?_eq_getElem?, List.getElem?_map,
            List.getElem?_eq_getElem heil]
          rfl
        rw [hgv]
        have hK2 : ∀ m2 v, m2 < eindex + 1 → starts.get? m2 = some v →
            v < sv + 3 := by
          intro m2 v hm2 hv
          have hm2l : m2 < starts.length := by
            by_contra hge
            rw [List.get?_eq_getElem?, List.getElem?_eq_none (by omega)] at hv
            cases hv
          have hveq : starts.get ⟨m2, hm2l⟩ = v := by
            rw [List.get?_eq_get hm2l] at hv
            injection hv
          rcases Nat.lt_or_ge m2 eindex with hlt2 | hge2
          · have hmono := List.pairwise_iff_getElem.mp hpw m2 eindex hm2l heil hlt2
            have : starts[m2] = v := hveq
            have : starts[eindex] = sv := rfl
            omega
          · have hm2e : m2 = eindex := by omega
            subst hm2e
            have : v = sv := hveq.symm
            omega
        have hM2 : ((starts.map (· + 3)).length - (eindex + 1)) * (e.length + 1) +
            (e.length - (sv + 3)) < n := by
          have hlm : (starts.map (· + 3)).length = starts.length := by simp
          have hkey : (starts.length - (eindex + 1)) * (e.length + 1) +
              (e.length + 1) = (starts.length - eindex) * (e.length + 1) := by
            have hsub : starts.length - eindex = (starts.length - (eindex + 1)) + 1 := by
              omega
            rw [hsub, Nat.succ_mul]
          rw [hlm] at hM ⊢
          omega
        obtain ⟨ts1, hts1⟩ := ih (sv + 3) (eindex + 1) hK2 hM2
        refine ⟨expr.token.funcTok (expr.strSlice e index (sv + 3)) :: ts1, ?_⟩
        dsimp only
        rw [hts1]
        rfl
      · rw [if_neg hst]
        have hKs : ∀ d, 1 ≤ d → ∀ m v, m < eindex → starts.get? m = some v →
            v < index + d := by
          intro d hd m v hm hv
          have := hK m v hm hv
          omega
        have hMs : ∀ d, 1 ≤ d →
            ((starts.map (· + 3)).length - eindex) * (e.length + 1) +
              (e.length - (index + d)) < n := by
          intro d hd
          omega
        by_cases hdg : expr.is_digit (e.get ⟨index, hin⟩) = true
        · rw [if_pos hdg]
          have hrun := takeWhile_pos_length e index hin hdg
          obtain ⟨ts1, hts1⟩ := ih (index + ((e.drop index).takeWhile expr.is_digit).length)
            eindex (hKs _ hrun) (hMs _ hrun)
          exact ⟨_, by rw [hts1]; rfl⟩
        · rw [if_neg hdg]
          by_cases hlt : expr.is_letter (e.get ⟨index, hin⟩) = true
          · rw [if_pos hlt]
            have hrun := takeWhile_pos_length e index hin hlt
            obtain ⟨ts1, hts1⟩ := ih (index + ((e.drop index).takeWhile expr.is_letter).length)
              eindex (hKs _ hrun) (hMs _ hrun)
            exact ⟨_, by rw [hts1]; rfl⟩
          · rw [if_neg hlt]
            by_cases hlp : e.get ⟨index, hin⟩ = '('
            · rw [if_pos hlp]
              obtain ⟨ts1, hts1⟩ := ih (index + 1) eindex
                (hKs 1 (le_refl 1)) (hMs 1 (le_refl 1))
              exact ⟨_, by rw [hts1]; rfl⟩
            · rw [if_neg hlp]
              by_cases hrp : e.get ⟨index, hin⟩ = ')'
              · rw [if_pos hrp]
                obtain ⟨ts1, hts1⟩ := ih (index + 1) eindex
                  (hKs 1 (le_refl 1)) (hMs 1 (le_refl 1))
                exact ⟨_, by rw [hts1]; rfl⟩
              · rw [if_neg hrp]
                by_cases hsy : expr.is_symbol
                    (String.singleton (e.get ⟨index, hin⟩)) = true
                · rw [if_pos hsy]
                  obtain ⟨ts1, hts1⟩ := ih (index + 1) eindex
                    (hKs 1 (le_refl 1)) (hMs 1 (le_refl 1))
                  exact ⟨_, by rw [hts1]; rfl⟩
                · rw [if_neg hsy]
                  exact ih (index + 1) eindex (hKs 1 (le_refl 1)) (hMs 1 (le_refl 1))
    · refine ⟨[], ?_⟩
      simp only [expr.tokenizeLoop]
      rw [dif_neg hin]

/-- C9: the tokenizer never fails: for every input string it returns a
token list, and characters that are not part of a registered function
name, not digits, not alphabetic, not parentheses and not operator symbols
(such as `,` and `?`) are silently skipped, producing no token. -/
theorem c9_tokenize_never_fails :
    (∀ s : String, ∃ ts, expr.tokenize s = .ok ts) ∧
    expr.tokenize "1,?2" = .ok [expr.token.numTok "1", expr.token.numTok "2"] := by
  refine ⟨?_, by rfl⟩
  intro s
  simp only [expr.tokenize]
  apply tokenizeLoop_ok s.data (expr._match_starts s.data 0)
    (_match_startsAux_pairwise _ _ _)
  · intro m v hm hv; omega
  · have hkey : ((expr._match_starts s.data 0).map (· + 3)).length *
        (s.data.length + 1) + (s.data.length + 1) =
        (((expr._match_starts s.data 0).map (· + 3)).length + 1) *
          (s.data.length + 1) := by
      rw [Nat.succ_mul]
    simp only [Nat.sub_zero]
    omega
